import Mathlib

/-!
Verification of the resource-resolution and name-generation engine of
`nuxt-openapi-composables` (src/core/naming.ts, src/core/resource-parser.ts,
src/core/method-generator.ts).

The TypeScript code is shallowly embedded: strings are Lean `String`
(operated on through their `List Char` data), JavaScript objects and `Map`s
become association lists in declaration/insertion order, and values that
JavaScript leaves `undefined` become `Option.none`.  JavaScript string
primitives (`includes`, `split`, `replace`, the regexes used by the code)
are modelled by structural functions on `List Char` defined below; case
conversion is modelled on the ASCII range, which is the range the generator
operates on (the JS regexes `[a-z]`/`[A-Z]` are ASCII-only).
-/

/-- Does the list start with the given pattern?  (`pat` first argument.) -/
def leadsWith : List Char → List Char → Bool
  | [], _ => true
  | _ :: _, [] => false
  | a :: ps, b :: bs => a == b && leadsWith ps bs

/-- Does `hay` contain `pat` as a contiguous run?  Models `String.includes`. -/
def chContains : List Char → List Char → Bool
  | hay, pat =>
    if leadsWith pat hay then true
    else match hay with
      | [] => false
      | _ :: rest => chContains rest pat

/-- JS `s.includes(sub)`. -/
def jsIncludes (s sub : String) : Bool := chContains s.data sub.data

/-- JS `s.startsWith(p)`. -/
def jsStartsWith (s p : String) : Bool := leadsWith p.data s.data

/-- JS `s.endsWith(p)`. -/
def jsEndsWith (s p : String) : Bool := leadsWith p.data.reverse s.data.reverse

/-- Split a character list at every occurrence of `sep`, keeping empty
pieces: models JS `String.split` with a single-character separator. -/
def splitOnChar (sep : Char) : List Char → List (List Char)
  | [] => [[]]
  | c :: rest =>
    if c == sep then [] :: splitOnChar sep rest
    else
      match splitOnChar sep rest with
      | [] => [[c]]
      | w :: ws => (c :: w) :: ws

/-- JS `s.split(sep)` for a one-character separator. -/
def jsSplit (s : String) (sep : Char) : List String :=
  (splitOnChar sep s.data).map String.mk

/-- Replace the first occurrence of `pat` in the list by `rep`; if `pat`
does not occur the list is returned unchanged.  Models JS
`String.replace` with a plain-string pattern. -/
def replaceFirstL (pat rep : List Char) : List Char → List Char
  | [] => if leadsWith pat [] then rep else []
  | c :: rest =>
    if leadsWith pat (c :: rest) then rep ++ (c :: rest).drop pat.length
    else c :: replaceFirstL pat rep rest

/-- JS `s.replace(pat, rep)` with a plain-string pattern. -/
def jsReplaceFirst (s pat rep : String) : String :=
  ⟨replaceFirstL pat.data rep.data s.data⟩

/-- ASCII whitespace, modelling the JS regex class `\s` on the characters
the generator encounters. -/
def isJsWs (c : Char) : Bool :=
  c == ' ' || c == '\t' || c == '\n' || c == '\r' || c == '\x0b' || c == '\x0c'

/-! ## Identifier formatter (`toPascalCase`, naming.ts) -/

/-- A separator of the split regex `[-_\s]` in `toPascalCase`. -/
def isSepChar (c : Char) : Bool := c == '-' || c == '_' || isJsWs c

/-- The global replace `str.replace(/([a-z])([A-Z])/g, "$1-$2")`: insert a
dash at every boundary between an ASCII lowercase and an ASCII uppercase
letter. -/
def insertDashes : List Char → List Char
  | a :: b :: r =>
    if a.isLower && b.isUpper then a :: '-' :: insertDashes (b :: r)
    else a :: insertDashes (b :: r)
  | l => l

/-- `split(/[-_\s]/)`: split at every separator character, keeping empty
pieces. -/
def splitSeps : List Char → List (List Char)
  | [] => [[]]
  | c :: rest =>
    if isSepChar c then [] :: splitSeps rest
    else
      match splitSeps rest with
      | [] => [[c]]
      | w :: ws => (c :: w) :: ws

/-- The split pieces after `.filter(word => word.length > 0)`. -/
def wordsOf (l : List Char) : List (List Char) :=
  (splitSeps l).filter (fun w => decide (0 < w.length))

/-- `word.charAt(0).toUpperCase() + word.slice(1).toLowerCase()`. -/
def capWord : List Char → List Char
  | [] => []
  | c :: rest => c.toUpper :: rest.map Char.toLower

/-- `toPascalCase` on raw character lists. -/
def toPascalList (l : List Char) : List Char :=
  ((wordsOf (insertDashes l)).map capWord).flatten

/-- naming.ts `toPascalCase`. -/
def toPascalCase (s : String) : String := ⟨toPascalList s.data⟩

/-! ## Data model (types.ts as used by the engine) -/

/-- A request body: only the keys of the content-type map are consulted. -/
structure RequestBody where
  content : Option (List String)
deriving DecidableEq

/-- A response object: only the keys of the content-type map are consulted. -/
structure ResponseObj where
  content : Option (List String)
deriving DecidableEq

/-- An operation: optional tags, optional request body, optional
per-status-code responses. -/
structure Operation where
  tags : Option (List String)
  requestBody : Option RequestBody
  responses : Option (List (String × ResponseObj))
deriving DecidableEq

/-- A path item: verb-keyed map of operations, in declaration order. -/
abbrev PathItem := List (String × Operation)

/-- The parsed OpenAPI schema: a path-keyed map of path items, in
declaration order. -/
structure OpenAPISchema where
  paths : List (String × PathItem)

/-- JS object property lookup on an association list. -/
def lookupA {α : Type} (l : List (String × α)) (k : String) : Option α :=
  (l.find? (fun e => e.1 == k)).map (fun e => e.2)

/-! ## Resource resolver (`getResourceName`, naming.ts) -/

/-- The regex `/\/api\/([^/]+)/`: scan for the first position where
`/api/` is followed by at least one non-`/` character; capture that
maximal run. -/
def apiCapAux : List Char → Option (List Char)
  | [] => none
  | c :: rest =>
    if leadsWith "/api/".data (c :: rest) then
      let seg := ((c :: rest).drop 5).takeWhile (fun d => d != '/')
      if 0 < seg.length then some seg else apiCapAux rest
    else apiCapAux rest

/-- `path.match(/\/api\/([^/]+)/)?.[1] ?? ''`. -/
def apiSegment (path : String) : String :=
  match apiCapAux path.data with
  | some seg => ⟨seg⟩
  | none => ""

/-- The global replace `/\s+/g → '-'`: each maximal whitespace run
becomes a single dash.  The flag records whether the previous character
was whitespace. -/
def squashWsAux : Bool → List Char → List Char
  | _, [] => []
  | prevWs, c :: rest =>
    if isJsWs c then
      if prevWs then squashWsAux true rest else '-' :: squashWsAux true rest
    else c :: squashWsAux false rest

/-- Normalize an OpenAPI tag to lowercase dash form: split camelCase with
dashes, replace whitespace runs with dashes, lowercase. -/
def tagToResource (tag : String) : String :=
  ⟨(squashWsAux false (insertDashes tag.data)).map Char.toLower⟩

/-- The verb priority list used by the tag fallback of `getResourceName`
(and by `getHttpMethods`). -/
def httpVerbs : List String := ["get", "post", "put", "patch", "delete"]

/-- The tag-fallback scan: the first operation (in verb-priority order)
carrying a truthy first tag yields that tag. -/
def tagFirst (pathItem : PathItem) : Option String :=
  httpVerbs.findSome? (fun method =>
    match lookupA pathItem method with
    | some operation =>
      match operation.tags with
      | some (t :: _) => if t != "" then some t else none
      | _ => none
    | none => none)

/-- naming.ts `getResourceName`. -/
def getResourceName (path : String) (schema : OpenAPISchema) : String :=
  if jsIncludes path "/auth/" || jsIncludes path "/login" || jsIncludes path "/token" then
    "authentication"
  else
    let pathResourceName := apiSegment path
    if pathResourceName != "" then pathResourceName
    else
      match lookupA schema.paths path with
      | some pathItem =>
        match tagFirst pathItem with
        | some tag => tagToResource tag
        | none => ""
      | none => ""

/-! ## Method name synthesizer (`generateMethodName`, naming.ts) -/

/-- naming.ts `toSingular`. -/
def toSingular (str : String) : String :=
  if jsEndsWith str "ies" then ⟨str.data.take (str.data.length - 3) ++ ['y']⟩
  else if jsEndsWith str "sses" then ⟨str.data.take (str.data.length - 2)⟩
  else if jsEndsWith str "s" && !(jsEndsWith str "ss") then
    ⟨str.data.take (str.data.length - 1)⟩
  else str

/-- The regex `/\{([^}]+)\}/`: first `{` followed by a nonempty run of
non-`}` characters and a closing `}`; capture the run. -/
def paramCapAux : List Char → Option (List Char)
  | [] => none
  | c :: rest =>
    if c == '{' then
      let seg := rest.takeWhile (fun d => d != '}')
      if 0 < seg.length then
        if (rest.drop seg.length).head? == some '}' then some seg
        else paramCapAux rest
      else paramCapAux rest
    else paramCapAux rest

/-- `path.match(/\{([^}]+)\}/)?.[1]`. -/
def firstParamName (path : String) : Option String :=
  (paramCapAux path.data).map String.mk

/-- JS array join with the empty string, on strings. -/
def strJoin (l : List String) : String := l.foldl (fun a b => a ++ b) ""

/-- naming.ts `generateMethodName` (current variant: collection `getTasks`,
item `getTask`, action `getHabitStreak`). -/
def generateMethodName (path method : String) (schema : OpenAPISchema) : String :=
  let resourceName := getResourceName path schema
  if resourceName == "" then method
  else
    let baseName := toPascalCase resourceName
    let pathSegments := (jsSplit path '/').filter (fun seg => seg != "" && seg != "api")
    let hasPathParams := jsIncludes path "\x7b"
    let hasIdParam := jsIncludes path "{id}"
    let baseResourceSegment := pathSegments.headD ""
    let pathModifiers := (pathSegments.drop 1).filter
      (fun seg => !(jsIncludes seg "\x7b") && seg != baseResourceSegment)
    if hasIdParam then
      let singularName := toSingular baseName
      if 0 < pathModifiers.length then
        method ++ singularName ++ strJoin (pathModifiers.map toPascalCase)
      else method ++ singularName
    else
      match (if hasPathParams then firstParamName path else none) with
      | some paramName => method ++ baseName ++ "By" ++ toPascalCase paramName
      | none =>
        if 0 < pathModifiers.length then
          let modifierPascal := strJoin (pathModifiers.map toPascalCase)
          if method == "get" then method ++ modifierPascal ++ baseName
          else method ++ baseName ++ modifierPascal
        else method ++ baseName

/-- Split off the leading non-`/` run. -/
def segSplit (l : List Char) : List Char × List Char :=
  (l.takeWhile (fun d => d != '/'), l.dropWhile (fun d => d != '/'))

/-- One anchor position of the regex
`/\/api\/[^/]+\/[^/]+\/([^/]+)$/`: `/api/` here, followed by exactly
three nonempty segments reaching the end; capture the last. -/
def v1MatchHere (l : List Char) : Option (List Char) :=
  if leadsWith "/api/".data l then
    match segSplit (l.drop 5) with
    | (seg1, '/' :: r1) =>
      if seg1.length = 0 then none
      else
        match segSplit r1 with
        | (seg2, '/' :: r2) =>
          if seg2.length = 0 then none
          else
            match segSplit r2 with
            | (seg3, []) => if seg3.length = 0 then none else some seg3
            | _ => none
        | _ => none
    | _ => none
  else none

/-- Left-to-right scan of the anchor positions of
`/\/api\/[^/]+\/[^/]+\/([^/]+)$/`. -/
def v1ActionAux : List Char → Option (List Char)
  | [] => none
  | c :: rest =>
    match v1MatchHere (c :: rest) with
    | some seg => some seg
    | none => v1ActionAux rest

/-- `path.match(/\/api\/[^/]+\/[^/]+\/([^/]+)$/)?.[1]`. -/
def v1Action (path : String) : Option String :=
  (v1ActionAux path.data).map String.mk

/-- The earlier duplicate variant of naming.ts `generateMethodName`
(collection `getTasksCollectionApi`, item `getTasksItemApi`), kept in the
repository next to the current one. -/
def generateMethodNameV1 (path method : String) (schema : OpenAPISchema) : String :=
  let resourceName := getResourceName path schema
  if resourceName == "" then method
  else
    let baseName := toPascalCase resourceName
    let actionOk := match v1Action path with
      | some action => if jsIncludes action "\x7b" then none else some action
      | none => none
    match actionOk with
    | some action => action ++ baseName ++ "Api"
    | none =>
      let hasPathParams := jsIncludes path "\x7b"
      let isStandardIdPath := jsIncludes path "{id}"
      let isCollection := !hasPathParams
      if isCollection && method == "get" then "get" ++ baseName ++ "CollectionApi"
      else if isCollection && method == "post" then "create" ++ baseName ++ "ItemApi"
      else if isStandardIdPath && method == "get" then "get" ++ baseName ++ "ItemApi"
      else if isStandardIdPath && method == "patch" then "patch" ++ baseName ++ "ItemApi"
      else if isStandardIdPath && method == "delete" then "delete" ++ baseName ++ "ItemApi"
      else
        match (if hasPathParams && !isStandardIdPath then firstParamName path else none) with
        | some paramName =>
          let p := toPascalCase paramName
          if method == "get" then "get" ++ baseName ++ "ItemBy" ++ p ++ "Api"
          else if method == "post" then "create" ++ baseName ++ "ItemBy" ++ p ++ "Api"
          else if method == "patch" then "patch" ++ baseName ++ "ItemBy" ++ p ++ "Api"
          else if method == "delete" then "delete" ++ baseName ++ "ItemBy" ++ p ++ "Api"
          else method ++ baseName ++ "Api"
        | none => method ++ baseName ++ "Api"

def schemaOf (path : String) (pi : PathItem) : OpenAPISchema := ⟨[(path, pi)]⟩

def emptyOp : Operation := ⟨none, none, none⟩

/-! ## Content-type negotiator (`getContentType`, resource-parser.ts) -/

/-- resource-parser.ts `getContentType`.  The declared return type of the
JS function is `string`, but when an operation declares an *empty*
content map it returns `contentTypes[0]`, which is `undefined`; the
result is therefore an `Option`, `none` standing for `undefined`. -/
def getContentType (path method : String) (schema : OpenAPISchema) : Option String :=
  match lookupA schema.paths path with
  | none => some "application/json"
  | some pathItem =>
    match lookupA pathItem method with
    | none => some "application/json"
    | some operation =>
      let isCollection := !(jsIncludes path "{id}")
      match operation.requestBody.bind (fun rb => rb.content) with
      | some contentTypes =>
        if method == "patch" && contentTypes.contains "application/merge-patch+json" then
          some "application/merge-patch+json"
        else if contentTypes.contains "application/json" then some "application/json"
        else if contentTypes.contains "application/ld+json" then some "application/ld+json"
        else contentTypes.head?
      | none =>
        match (operation.responses.bind (fun rs => lookupA rs "200")).bind
            (fun r => r.content) with
        | some contentTypes =>
          if method == "get" && isCollection && contentTypes.contains "application/ld+json" then
            some "application/ld+json"
          else if method == "get" && isCollection && contentTypes.contains "application/json" then
            some "application/json"
          else if contentTypes.contains "application/json" then some "application/json"
          else if contentTypes.contains "application/ld+json" then some "application/ld+json"
          else contentTypes.head?
        | none => some "application/json"

/-! ## Operation enumerator and resource grouping (resource-parser.ts) -/

/-- resource-parser.ts `getHttpMethods`: the keys of the path item filtered
to the recognized verb set, in declaration order. -/
def getHttpMethods (pathItem : PathItem) : List String :=
  (pathItem.map (fun e => e.1)).filter (fun key => httpVerbs.contains key)

/-- Primary weight of an ASCII code point under the CLDR root collation,
the default order of `a.localeCompare(b)` (ICU, no locale argument).
Root order on the printable ASCII repertoire: whitespace (TAB LF VT FF CR
SPACE), then punctuation and symbols in chart order (the connector low
line, the dash, comma, semicolon, colon, exclamation and question marks,
the period, the two quote marks, the paired brackets in the order
parentheses / square brackets / curly braces, commercial at, asterisk,
slash, backslash, ampersand, number sign, percent, the grave accent,
circumflex, plus sign, the angle and equals signs, vertical line, tilde,
dollar), then the decimal digits, then the letters with each lowercase
letter immediately before its uppercase form.  The ASCII control
characters other than TAB..CR are ignorable in ICU; here they receive
distinct trailing weights (`n + 128`), which never matters on the URL
path strings the generator sorts. -/
def rankTable (n : Nat) : Nat :=
  if 97 ≤ n ∧ n ≤ 122 then 50 + 2 * (n - 97)
  else if 65 ≤ n ∧ n ≤ 90 then 51 + 2 * (n - 65)
  else if 48 ≤ n ∧ n ≤ 57 then 40 + (n - 48)
  else
    match n with
    | 9 => 1
    | 10 => 2
    | 11 => 3
    | 12 => 4
    | 13 => 5
    | 32 => 6
    | 95 => 7
    | 45 => 8
    | 44 => 9
    | 59 => 10
    | 58 => 11
    | 33 => 12
    | 63 => 13
    | 46 => 14
    | 39 => 15
    | 34 => 16
    | 40 => 17
    | 41 => 18
    | 91 => 19
    | 93 => 20
    | 123 => 21
    | 125 => 22
    | 64 => 23
    | 42 => 24
    | 47 => 25
    | 92 => 26
    | 38 => 27
    | 35 => 28
    | 37 => 29
    | 96 => 30
    | 94 => 31
    | 43 => 32
    | 60 => 33
    | 61 => 34
    | 62 => 35
    | 124 => 36
    | 126 => 37
    | 36 => 38
    | _ => n + 128

/-- Collation weight of a character: the root-collation rank for ASCII,
and the code point shifted past every ASCII rank for the rest (the root
collation orders the supplementary repertoire after ASCII letters and
broadly by code point, which is all the generator ever compares). -/
def charRank (c : Char) : Nat :=
  if c.toNat < 128 then rankTable c.toNat else c.toNat + 256

/-- Strict collation order on character lists: lexicographic on
`charRank`.  This models the ascending comparator
`a.localeCompare(b)` of `getResourcePaths`. -/
def collLt : List Char → List Char → Bool
  | [], [] => false
  | [], _ :: _ => true
  | _ :: _, [] => false
  | a :: as, b :: bs =>
    if charRank a < charRank b then true
    else if charRank b < charRank a then false
    else collLt as bs

/-- Non-strict version of `collLt`. -/
def collLe (a b : List Char) : Bool := collLt a b || a == b

/-- resource-parser.ts `getResourcePaths`: the path entries of the schema
whose resolved resource equals `resourceName`, sorted ascending by
`localeCompare` (modelled by the root-collation order `collLe`). -/
def getResourcePaths (resourceName : String) (schema : OpenAPISchema) :
    List (String × PathItem) :=
  List.insertionSort (fun a b => collLe a.1.data b.1.data = true)
    (schema.paths.filter (fun e => getResourceName e.1 schema == resourceName))

/-! ## Uniqueness resolver (`ensureUniqueMethodNames`, naming.ts) -/

/-- `verb.charAt(0).toUpperCase() + verb.slice(1)`. -/
def capFirst (s : String) : String :=
  match s.data with
  | [] => ""
  | c :: rest => ⟨c.toUpper :: rest⟩

/-- The fixed ordered prefix list of the uniqueness resolver. -/
def methodVerbs : List String := ["get", "create", "delete", "patch", "put"]

/-- The inner verb loop of `ensureUniqueMethodNames`: for the first verb
the candidate starts with, replace the first occurrence of the
*capitalized* verb by the capitalized verb followed by the segment
(`uniqueName.replace(verbCapitalized, verbCapitalized + segmentPascal)`);
`none` when no verb matches (`inserted` stays false). -/
def tryVerbInsert (uniqueName segmentPascal : String) : Option String :=
  methodVerbs.findSome? (fun verb =>
    if jsStartsWith uniqueName verb then
      some (jsReplaceFirst uniqueName (capFirst verb) (capFirst verb ++ segmentPascal))
    else none)

/-- The segment loop of `ensureUniqueMethodNames`: walk the segments
of the path from the end, skip `api` and `{param}` segments, and accept the
first insertion result that is not yet claimed. -/
def segLoop (pathSegments : List String) (methodName : String) (used : List String) :
    Option String :=
  pathSegments.reverse.findSome? (fun segment =>
    if segment != "api" && !(jsIncludes segment "\x7b") then
      match tryVerbInsert methodName (toPascalCase segment) with
      | some uniqueName => if !(used.contains uniqueName) then some uniqueName else none
      | none => none
    else none)

/-- Decimal digit character. -/
def decDigitChar : Nat → Char
  | 0 => '0'
  | 1 => '1'
  | 2 => '2'
  | 3 => '3'
  | 4 => '4'
  | 5 => '5'
  | 6 => '6'
  | 7 => '7'
  | 8 => '8'
  | 9 => '9'
  | _ => '0'

/-- Decimal digits of a natural number, most significant first, with
explicit fuel (any fuel with `n < 10 ^ fuel` yields all digits; see the
round-trip lemma below). -/
def natDecimalAux : Nat → Nat → List Char
  | 0, _ => []
  | fuel + 1, n =>
    if n < 10 then [decDigitChar n]
    else natDecimalAux fuel (n / 10) ++ [decDigitChar (n % 10)]

/-- Decimal string of a natural number: the JS template interpolation
`${counter}`. -/
def natDecimal (n : Nat) : String := ⟨natDecimalAux (n + 1) n⟩

/-- The numeric-suffix `while` loop of `ensureUniqueMethodNames`, run
with explicit fuel.  With fuel `used.length + 1` the loop always stops
before the fuel does (proved below), so the fuelled function is the
loop. -/
def numericFallbackAux (methodName : String) (used : List String) : Nat → Nat → String
  | 0, k => methodName ++ natDecimal k
  | fuel + 1, k =>
    let attemptName := methodName ++ natDecimal k
    if used.contains attemptName then numericFallbackAux methodName used fuel (k + 1)
    else attemptName

/-- `let counter = 1; while (usedNames.has(attemptName)) { counter++; … }`. -/
def numericFallback (methodName : String) (used : List String) : String :=
  numericFallbackAux methodName used (used.length + 1) 1

/-- The first pass of `ensureUniqueMethodNames`: occurrences of each
candidate name among the values of the map. -/
def countName (methodNames : List (String × String)) (name : String) : Nat :=
  (methodNames.filter (fun e => e.2 == name)).length

/-- The main `forEach` of `ensureUniqueMethodNames`, in insertion order,
threading the `usedNames` set. -/
def euAux (counts : String → Nat) : List String → List (String × String) →
    List (String × String)
  | _, [] => []
  | used, (key, methodName) :: rest =>
    let path := (jsSplit key ':').headD ""
    if counts methodName > 1 || used.contains methodName then
      let pathSegments := (jsSplit path '/').filter (fun s => s != "")
      match segLoop pathSegments methodName used with
      | some uniqueName => (key, uniqueName) :: euAux counts (uniqueName :: used) rest
      | none =>
        let attemptName := numericFallback methodName used
        (key, attemptName) :: euAux counts (attemptName :: used) rest
    else
      (key, methodName) :: euAux counts (methodName :: used) rest

/-- naming.ts `ensureUniqueMethodNames` on the candidate map in insertion
order. -/
def ensureUniqueMethodNames (methodNames : List (String × String)) :
    List (String × String) :=
  euAux (fun name => countName methodNames name) [] methodNames

/-! ## Emission orchestrator first pass (method-generator.ts) -/

/-- JS `Map.set`: update in place if the key exists, else append. -/
def setA (m : List (String × String)) (k v : String) : List (String × String) :=
  if (lookupA m k).isSome then m.map (fun e => if e.1 == k then (k, v) else e)
  else m ++ [(k, v)]

/-- The candidate-map construction of `generateComposableFromResources`:
`methodNames.set(path + ':' + method, generateMethodName(path, method, schema))`
over all resource paths and their verbs. -/
def buildCandidateMap (resourcePaths : List (String × PathItem)) (schema : OpenAPISchema) :
    List (String × String) :=
  resourcePaths.foldl (fun acc e =>
    (getHttpMethods e.2).foldl (fun acc2 method =>
      setA acc2 (e.1 ++ ":" ++ method) (generateMethodName e.1 method schema)) acc) []

/-- The combined candidate map of one emitted unit in
`generateComposableFromResources`: the paths of all the resources concatenated,
then the candidate map built over them. -/
def composableCandidateMap (resourceNames : List String) (schema : OpenAPISchema) :
    List (String × String) :=
  buildCandidateMap ((resourceNames.map (fun r => getResourcePaths r schema)).flatten) schema

/-! ## Accessors used by the theorem statements -/

/-- The operation the schema declares at `(path, method)`, if any. -/
def opAt (path method : String) (schema : OpenAPISchema) : Option Operation :=
  (lookupA schema.paths path).bind (fun pathItem => lookupA pathItem method)

/-- `operation.requestBody?.content` (the keys). -/
def reqContentOf (op : Operation) : Option (List String) :=
  op.requestBody.bind (fun rb => rb.content)

/-- The keys of `operation.responses?.["200"]?.content`. -/
def res200ContentOf (op : Operation) : Option (List String) :=
  (op.responses.bind (fun rs => lookupA rs "200")).bind (fun r => r.content)

/-- All content maps the operation at `(path, method)` declares. -/
def opContentMaps (path method : String) (schema : OpenAPISchema) : List (List String) :=
  match opAt path method schema with
  | some op => (reqContentOf op).toList ++ (res200ContentOf op).toList
  | none => []

/-! ## C6: the non-empty-MIME-string guarantee fails on empty content maps -/

/-- A schema whose `post` operation declares a request body with an
*empty* content map. -/
def emptyContentSchema : OpenAPISchema :=
  schemaOf "/p" [("post", ⟨none, some ⟨some []⟩, none⟩)]

/-! ## C9: collection-flavored vs item-flavored names -/

/-- A schema declaring resource `tasks` with a collection path and a
single-item path. -/
def tasksSchema : OpenAPISchema :=
  ⟨[("/api/tasks", [("get", emptyOp), ("post", emptyOp)]),
    ("/api/tasks/{id}", [("get", emptyOp)])]⟩

/-! ## C3: the claimed segment insertion never happens (code bug) -/

/-- The candidate map with two colliding `getTasks` candidates used to
exhibit the disambiguation behavior. -/
def collidingCandidates : List (String × String) :=
  [("/api/tasks:get", "getTasks"), ("/api/users:get", "getTasks")]

/-! ## Freshness of the numeric fallback -/

/-- Parse a decimal digit string back to a number. -/
def decVal (l : List Char) : Nat := l.foldl (fun acc c => acc * 10 + (c.toNat - 48)) 0

/-- No separator characters. -/
def SepFree (l : List Char) : Prop := ∀ c ∈ l, isSepChar c = false

/-- Empty, or the first character is not lowercase. -/
def HeadNotLower : List Char → Prop
  | [] => True
  | c :: _ => c.isLower = false

/-- All characters after the first are not uppercase. -/
def TailNotUpper : List Char → Prop
  | [] => True
  | _ :: t => ∀ c ∈ t, c.isUpper = false

/-- The shape of a capitalized word produced by `capWord`. -/
def Good (w : List Char) : Prop := w ≠ [] ∧ SepFree w ∧ HeadNotLower w ∧ TailNotUpper w

/-- Nonempty with lowercase last character. -/
def lastLower : List Char → Prop
  | [] => False
  | [c] => c.isLower = true
  | _ :: c :: t => lastLower (c :: t)

/-- Nonempty with uppercase first character. -/
def startsUpper : List Char → Prop
  | [] => False
  | c :: _ => c.isUpper = true

/-- No lowercase→uppercase boundary anywhere. -/
def NoBd : List Char → Prop
  | a :: b :: t => ¬(a.isLower = true ∧ b.isUpper = true) ∧ NoBd (b :: t)
  | _ => True

/-- A list of capitalized words whose junctions are all
lowercase→uppercase boundaries. -/
def Chain : List (List Char) → Prop
  | [] => True
  | [w] => Good w
  | w :: w' :: ws => Good w ∧ lastLower w ∧ startsUpper w' ∧ Chain (w' :: ws)

/-- Words joined by single dashes. -/
def dashJoin : List (List Char) → List Char
  | [] => []
  | [w] => w
  | w :: ws => w ++ '-' :: dashJoin ws

/-! ## Chunks: maximal boundary-free runs of a separator-free list -/

/-- Split at every lowercase→uppercase boundary. -/
def chunksCh : List Char → List (List Char)
  | [] => []
  | [c] => [[c]]
  | a :: b :: r =>
    if a.isLower && b.isUpper then [a] :: chunksCh (b :: r)
    else
      match chunksCh (b :: r) with
      | [] => [[a]]
      | p :: ps => (a :: p) :: ps

/-- Junction shape of a chunk list: each left chunk ends lowercase, each
right chunk starts uppercase. -/
def ChunkShape : List (List Char) → Prop
  | [] => True
  | [_] => True
  | w :: w' :: ws => lastLower w ∧ startsUpper w' ∧ ChunkShape (w' :: ws)

/-- The first word, if any, does not start lowercase. -/
def HeadNotLowerFirst : List (List Char) → Prop
  | [] => True
  | w :: _ => HeadNotLower w

/-! ## Sanity checks against the unit tests of the repository -/

example : toPascalCase "user-limits" = "UserLimits" := by decide

example : toPascalCase "task_statuses" = "TaskStatuses" := by decide

example : toPascalCase "habitEntries" = "HabitEntries" := by decide

example : toPascalCase "user-api_token" = "UserApiToken" := by decide

example : toPascalCase "user limits" = "UserLimits" := by decide

example : toPascalCase "tasks" = "Tasks" := by decide

example : getResourceName "/api/tasks" (schemaOf "/api/tasks" [("get", emptyOp)]) = "tasks" := by
  decide

example :
    getResourceName "/api/habit-entries" (schemaOf "/api/habit-entries" [("get", emptyOp)]) =
      "habit-entries" := by decide

example : getResourceName "/auth/login" (schemaOf "/auth/login" [("get", emptyOp)]) =
    "authentication" := by decide

example : getResourceName "/api/auth/token" (schemaOf "/api/auth/token" [("get", emptyOp)]) =
    "authentication" := by decide

example :
    getResourceName "/custom/path"
      (schemaOf "/custom/path" [("get", ⟨some ["UserLimits"], none, none⟩)]) = "user-limits" := by
  decide

example :
    getResourceName "/custom/path"
      (schemaOf "/custom/path" [("get", ⟨some ["Login Check"], none, none⟩)]) = "login-check" := by
  decide

example : generateMethodName "/api/tasks" "get" (schemaOf "/api/tasks" [("get", emptyOp)]) =
    "getTasks" := by decide

example : generateMethodName "/api/tasks" "post" (schemaOf "/api/tasks" [("get", emptyOp)]) =
    "postTasks" := by decide

example :
    generateMethodName "/api/tasks/{id}" "get" (schemaOf "/api/tasks/{id}" [("get", emptyOp)]) =
      "getTask" := by decide

example :
    generateMethodName "/api/tasks/{id}" "patch" (schemaOf "/api/tasks/{id}" [("get", emptyOp)]) =
      "patchTask" := by decide

example :
    generateMethodName "/api/tasks/{id}" "delete" (schemaOf "/api/tasks/{id}" [("get", emptyOp)]) =
      "deleteTask" := by decide

example :
    generateMethodName "/api/tasks/{entityType}" "get"
      (schemaOf "/api/tasks/{entityType}" [("get", emptyOp)]) = "getTasksByEntityType" := by decide

example :
    generateMethodName "/api/habits/{id}/streak" "get"
      (schemaOf "/api/habits/{id}/streak" [("get", emptyOp)]) = "getHabitStreak" := by decide

example :
    generateMethodName "/api/user_limits" "get"
      (schemaOf "/api/user_limits" [("get", emptyOp)]) = "getUserLimits" := by decide

example :
    generateMethodNameV1 "/api/tasks" "get" (schemaOf "/api/tasks" [("get", emptyOp)]) =
      "getTasksCollectionApi" := by decide

example :
    generateMethodNameV1 "/api/tasks/{id}" "get" (schemaOf "/api/tasks/{id}" [("get", emptyOp)]) =
      "getTasksItemApi" := by decide

/-! Sanity checks for the negotiator and resolver, mirroring the
resource-parser tests of the repository. -/

example : getContentType "/api/tasks" "get" ⟨[]⟩ = some "application/json" := by decide

example :
    getContentType "/api/tasks/{id}" "patch"
      (schemaOf "/api/tasks/{id}"
        [("patch", ⟨none, some ⟨some ["application/merge-patch+json"]⟩, none⟩)]) =
      some "application/merge-patch+json" := by decide

example :
    getContentType "/api/tasks" "post"
      (schemaOf "/api/tasks"
        [("post", ⟨none, some ⟨some ["application/ld+json", "application/json"]⟩, none⟩)]) =
      some "application/json" := by decide

example :
    getContentType "/api/tasks" "get"
      (schemaOf "/api/tasks"
        [("get", ⟨none, none,
          some [("200", ⟨some ["application/ld+json", "application/json"]⟩)]⟩)]) =
      some "application/ld+json" := by decide

example :
    getContentType "/api/tasks/{id}" "get"
      (schemaOf "/api/tasks/{id}"
        [("get", ⟨none, none,
          some [("200", ⟨some ["application/ld+json", "application/json"]⟩)]⟩)]) =
      some "application/json" := by decide

example : getHttpMethods [("get", emptyOp), ("parameters", emptyOp), ("post", emptyOp)] =
    ["get", "post"] := by decide

example :
    getResourcePaths "tasks"
      ⟨[("/api/tasks/{id}", [("get", emptyOp)]), ("/api/tasks", [("post", emptyOp)])]⟩ =
      [("/api/tasks", [("post", emptyOp)]), ("/api/tasks/{id}", [("get", emptyOp)])] := by decide

example :
    ensureUniqueMethodNames [("/api/tasks:get", "getTasks"), ("/api/users:get", "getTasks")] =
      [("/api/tasks:get", "getTasks"), ("/api/users:get", "getTasks1")] := by decide

example :
    composableCandidateMap ["tasks"]
      ⟨[("/api/tasks", [("get", emptyOp), ("post", emptyOp)]),
        ("/api/tasks/{id}", [("get", emptyOp)])]⟩ =
      [("/api/tasks:get", "getTasks"), ("/api/tasks:post", "postTasks"),
        ("/api/tasks/{id}:get", "getTask")] := by decide

/-! ## C7: content-free operations negotiate to the default -/

/-- C7: for every `(path, verb)` whose operation declares no request-body
content and no 200-response content — including when the path or verb is
absent from the schema — `getContentType` returns `application/json` and
never fails. -/
theorem getContentType_default_json (path method : String) (schema : OpenAPISchema)
    (h : (opAt path method schema).all
      (fun op => reqContentOf op == none && res200ContentOf op == none) = true) :
    getContentType path method schema = some "application/json" := by
  unfold opAt at h
  cases hp : lookupA schema.paths path with
  | none => simp [getContentType, hp]
  | some pathItem =>
    rw [hp] at h
    cases ho : lookupA pathItem method with
    | none => simp [getContentType, hp, ho]
    | some operation =>
      simp only [Option.some_bind, ho, Option.all_some, Bool.and_eq_true, beq_iff_eq] at h
      simp only [reqContentOf, res200ContentOf] at h
      simp [getContentType, hp, ho, h.1, h.2]

/-- Witness for C7. -/
theorem getContentType_default_json_witness :
    getContentType "/api/tasks" "get" (schemaOf "/api/tasks" [("get", emptyOp)]) =
      some "application/json" ∧
    getContentType "/missing" "get" ⟨[]⟩ = some "application/json" :=
  ⟨getContentType_default_json "/api/tasks" "get" _ (by decide),
   getContentType_default_json "/missing" "get" ⟨[]⟩ (by decide)⟩

/-! ## C5: collection vs item negotiation for `get` -/

/-- C5: a `get` operation with no request-body content whose 200-response
content map declares both `application/ld+json` and `application/json`
negotiates to `application/ld+json` on a collection path (no `{id}`) and
to `application/json` on a single-item path (`{id}` present). -/
theorem getContentType_get_collection_vs_item (path : String) (schema : OpenAPISchema)
    (op : Operation) (cts : List String)
    (hop : opAt path "get" schema = some op)
    (hrb : reqContentOf op = none)
    (hres : res200ContentOf op = some cts)
    (hld : cts.contains "application/ld+json" = true)
    (hjson : cts.contains "application/json" = true) :
    (jsIncludes path "{id}" = false →
      getContentType path "get" schema = some "application/ld+json") ∧
    (jsIncludes path "{id}" = true →
      getContentType path "get" schema = some "application/json") := by
  unfold opAt at hop
  rw [Option.bind_eq_some] at hop
  obtain ⟨pathItem, hp, ho⟩ := hop
  unfold reqContentOf at hrb
  unfold res200ContentOf at hres
  have hld' : "application/ld+json" ∈ cts := by simpa using hld
  have hjson' : "application/json" ∈ cts := by simpa using hjson
  constructor
  · intro hcoll
    simp [getContentType, hp, ho, hrb, hres, hld', hjson', hcoll]
  · intro hitem
    simp [getContentType, hp, ho, hrb, hres, hld', hjson', hitem]

/-- Witness for C5. -/
theorem getContentType_get_collection_vs_item_witness :
    getContentType "/api/tasks" "get"
        (schemaOf "/api/tasks"
          [("get", ⟨none, none,
            some [("200", ⟨some ["application/ld+json", "application/json"]⟩)]⟩)]) =
      some "application/ld+json" ∧
    getContentType "/api/tasks/{id}" "get"
        (schemaOf "/api/tasks/{id}"
          [("get", ⟨none, none,
            some [("200", ⟨some ["application/ld+json", "application/json"]⟩)]⟩)]) =
      some "application/json" :=
  ⟨(getContentType_get_collection_vs_item "/api/tasks"
      (schemaOf "/api/tasks"
        [("get", ⟨none, none,
          some [("200", ⟨some ["application/ld+json", "application/json"]⟩)]⟩)])
      ⟨none, none, some [("200", ⟨some ["application/ld+json", "application/json"]⟩)]⟩
      ["application/ld+json", "application/json"] (by decide) (by decide) (by decide)
      (by decide) (by decide)).1 (by decide),
   (getContentType_get_collection_vs_item "/api/tasks/{id}"
      (schemaOf "/api/tasks/{id}"
        [("get", ⟨none, none,
          some [("200", ⟨some ["application/ld+json", "application/json"]⟩)]⟩)])
      ⟨none, none, some [("200", ⟨some ["application/ld+json", "application/json"]⟩)]⟩
      ["application/ld+json", "application/json"] (by decide) (by decide) (by decide)
      (by decide) (by decide)).2 (by decide)⟩

/-- C6 counterexample: when an operation declares an empty content map,
`getContentType` evaluates `contentTypes[0]` on an empty array and
returns `undefined` (`none`), not a non-empty MIME-type string. -/
theorem getContentType_none_on_empty_content :
    getContentType "/p" "post" emptyContentSchema = none := by decide

/-- C6 as amended: whenever every content map the operation declares is
non-empty and contains no empty string, `getContentType` returns a
non-empty MIME-type string; in particular, absent content information
falls back to the fixed default. -/
theorem getContentType_some_nonempty (path method : String) (schema : OpenAPISchema)
    (h : ∀ cts ∈ opContentMaps path method schema, cts ≠ [] ∧ "" ∉ cts) :
    ∃ ct, getContentType path method schema = some ct ∧ ct ≠ "" := by
  unfold opContentMaps opAt at h
  cases hp : lookupA schema.paths path with
  | none =>
    refine ⟨"application/json", by simp [getContentType, hp], by decide⟩
  | some pathItem =>
    rw [hp] at h
    cases ho : lookupA pathItem method with
    | none =>
      refine ⟨"application/json", by simp [getContentType, hp, ho], by decide⟩
    | some operation =>
      simp only [Option.some_bind, ho] at h
      cases hrb : reqContentOf operation with
      | some cts =>
        have hcts := h cts (by simp [hrb])
        unfold reqContentOf at hrb
        simp only [getContentType, hp, ho, hrb]
        split
        · exact ⟨"application/merge-patch+json", rfl, by decide⟩
        · split
          · exact ⟨"application/json", rfl, by decide⟩
          · split
            · exact ⟨"application/ld+json", rfl, by decide⟩
            · cases cts with
              | nil => exact absurd rfl hcts.1
              | cons c rest =>
                refine ⟨c, rfl, fun hc => ?_⟩
                exact hcts.2 (hc ▸ List.mem_cons_self c rest)
      | none =>
        cases hrs : res200ContentOf operation with
        | some cts =>
          have hcts := h cts (by simp [hrb, hrs])
          unfold reqContentOf at hrb
          unfold res200ContentOf at hrs
          simp only [getContentType, hp, ho, hrb, hrs]
          split
          · exact ⟨"application/ld+json", rfl, by decide⟩
          · split
            · exact ⟨"application/json", rfl, by decide⟩
            · split
              · exact ⟨"application/json", rfl, by decide⟩
              · split
                · exact ⟨"application/ld+json", rfl, by decide⟩
                · cases cts with
                  | nil => exact absurd rfl hcts.1
                  | cons c rest =>
                    refine ⟨c, rfl, fun hc => ?_⟩
                    exact hcts.2 (hc ▸ List.mem_cons_self c rest)
        | none =>
          unfold reqContentOf at hrb
          unfold res200ContentOf at hrs
          exact ⟨"application/json", by simp [getContentType, hp, ho, hrb, hrs], by decide⟩

/-- Witness for the amended C6. -/
theorem getContentType_some_nonempty_witness :
    ∃ ct,
      getContentType "/api/tasks/{id}" "patch"
          (schemaOf "/api/tasks/{id}"
            [("patch", ⟨none, some ⟨some ["application/merge-patch+json"]⟩, none⟩)]) =
        some ct ∧ ct ≠ "" :=
  getContentType_some_nonempty "/api/tasks/{id}" "patch" _ (by decide)

/-! ## C4: the `authentication` special case is substring-based -/

/-- C4 counterexample: `/api/tokens` has no `/auth/` segment and its
final segment is `tokens`, yet `getResourceName` returns
`authentication`, because the code tests `path.includes("/token")` — a
substring check, not a final-segment check. -/
theorem getResourceName_auth_claim_false :
    getResourceName "/api/tokens" ⟨[]⟩ = "authentication" ∧
    ¬(jsIncludes "/api/tokens" "/auth/" = true ∨
      (jsSplit "/api/tokens" '/').getLast? = some "login" ∨
      (jsSplit "/api/tokens" '/').getLast? = some "token") := by
  constructor
  · decide
  · decide

/-- C4 as amended: `getResourceName` returns the fixed identity
`authentication` whenever the path contains `/auth/`, `/login`, or
`/token` as a substring; in particular `/auth/login` and
`/api/auth/token` resolve to `authentication`. -/
theorem getResourceName_authentication_substring (path : String) (schema : OpenAPISchema)
    (h : (jsIncludes path "/auth/" || jsIncludes path "/login" ||
      jsIncludes path "/token") = true) :
    getResourceName path schema = "authentication" := by
  simp [getResourceName, h]

/-- Witness for the amended C4. -/
theorem getResourceName_authentication_substring_witness :
    getResourceName "/auth/login" ⟨[]⟩ = "authentication" ∧
    getResourceName "/api/auth/token" ⟨[]⟩ = "authentication" :=
  ⟨getResourceName_authentication_substring "/auth/login" ⟨[]⟩ (by decide),
   getResourceName_authentication_substring "/api/auth/token" ⟨[]⟩ (by decide)⟩

/-- C9: `get /api/tasks` yields the collection-flavored name and
`get /api/tasks/{id}` the singularized item-flavored name, and the two
are distinct — in the current `generateMethodName` and in the earlier
duplicate variant alike. -/
theorem generateMethodName_collection_item_distinct :
    generateMethodName "/api/tasks" "get" tasksSchema = "getTasks" ∧
    generateMethodName "/api/tasks/{id}" "get" tasksSchema = "getTask" ∧
    ("getTasks" : String) ≠ "getTask" ∧
    generateMethodNameV1 "/api/tasks" "get" tasksSchema = "getTasksCollectionApi" ∧
    generateMethodNameV1 "/api/tasks/{id}" "get" tasksSchema = "getTasksItemApi" ∧
    ("getTasksCollectionApi" : String) ≠ "getTasksItemApi" := by
  refine ⟨by decide, by decide, by decide, by decide, by decide, by decide⟩

/-- C3 failing input, evaluated: the candidate `getTasks` collides and
starts with the known verb `get`, and the path `/api/tasks` offers the
qualifying segment `tasks`; the claim says the first pair is renamed to
`getTasksTasks` (segment inserted after the verb).  The code instead
replaces the first occurrence of the *capitalized* verb `Get`, which
never occurs in a candidate that starts with lowercase `get`, so the
replacement is a no-op: the first pair keeps `getTasks` and the second
falls through to the numeric suffix `getTasks1`. -/
theorem ensureUniqueMethodNames_insertion_noop :
    ensureUniqueMethodNames collidingCandidates =
      [("/api/tasks:get", "getTasks"), ("/api/users:get", "getTasks1")] ∧
    jsReplaceFirst "getTasks" "Get" "GetTasks" = "getTasks" ∧
    jsStartsWith "getTasks" "get" = true := by
  refine ⟨by decide, by decide, by decide⟩

theorem decDigitChar_toNat (d : Nat) (h : d < 10) : (decDigitChar d).toNat = 48 + d := by
  interval_cases d <;> decide

theorem decVal_append_digit (l : List Char) (c : Char) :
    decVal (l ++ [c]) = decVal l * 10 + (c.toNat - 48) := by
  unfold decVal
  rw [List.foldl_append]
  rfl

theorem decVal_natDecimalAux (fuel n : Nat) (h : n < 10 ^ fuel) :
    decVal (natDecimalAux fuel n) = n := by
  induction fuel generalizing n with
  | zero =>
    have : n = 0 := by simpa using h
    simp [natDecimalAux, decVal, this]
  | succ fuel ih =>
    by_cases h10 : n < 10
    · simp only [natDecimalAux, if_pos h10]
      unfold decVal
      simp [List.foldl, decDigitChar_toNat n h10]
    · simp only [natDecimalAux, if_neg h10]
      rw [decVal_append_digit]
      have hdiv : n / 10 < 10 ^ fuel := by
        rw [Nat.div_lt_iff_lt_mul (by omega)]
        calc n < 10 ^ (fuel + 1) := h
          _ = 10 ^ fuel * 10 := by rw [pow_succ]
      rw [ih (n / 10) hdiv]
      rw [decDigitChar_toNat (n % 10) (Nat.mod_lt n (by omega))]
      omega

theorem natDecimal_injective : Function.Injective natDecimal := by
  intro a b h
  have hdata : natDecimalAux (a + 1) a = natDecimalAux (b + 1) b := congrArg String.data h
  have ha : a < 10 ^ (a + 1) :=
    lt_of_lt_of_le (Nat.lt_pow_self (by omega) a) (Nat.pow_le_pow_right (by omega) (by omega))
  have hb : b < 10 ^ (b + 1) :=
    lt_of_lt_of_le (Nat.lt_pow_self (by omega) b) (Nat.pow_le_pow_right (by omega) (by omega))
  calc a = decVal (natDecimalAux (a + 1) a) := (decVal_natDecimalAux _ a ha).symm
    _ = decVal (natDecimalAux (b + 1) b) := by rw [hdata]
    _ = b := decVal_natDecimalAux _ b hb

theorem append_natDecimal_injective (base : String) :
    Function.Injective (fun j => base ++ natDecimal (1 + j)) := by
  intro a b h
  simp only at h
  have hdata : (base ++ natDecimal (1 + a)).data = (base ++ natDecimal (1 + b)).data :=
    congrArg String.data h
  rw [String.data_append, String.data_append] at hdata
  have := List.append_cancel_left hdata
  have heq : natDecimal (1 + a) = natDecimal (1 + b) := by
    cases hnd : natDecimal (1 + a)
    cases hnd2 : natDecimal (1 + b)
    rw [hnd, hnd2] at this
    exact congrArg String.mk this
  have := natDecimal_injective heq
  omega

/-- Pigeonhole: among the first `used.length + 1` numeric suffixes some
name is unclaimed. -/
theorem exists_fresh_suffix (base : String) (used : List String) :
    ∃ j, j ≤ used.length ∧ (base ++ natDecimal (1 + j)) ∉ used := by
  by_contra hcon
  push_neg at hcon
  have hsub : Finset.image (fun j => base ++ natDecimal (1 + j))
      (Finset.range (used.length + 1)) ⊆ used.toFinset := by
    intro x hx
    rw [Finset.mem_image] at hx
    obtain ⟨j, hj, rfl⟩ := hx
    rw [List.mem_toFinset]
    exact hcon j (by have := Finset.mem_range.mp hj; omega)
  have hcard := Finset.card_le_card hsub
  rw [Finset.card_image_of_injective _ (append_natDecimal_injective base),
    Finset.card_range] at hcard
  have := List.toFinset_card_le used
  omega

theorem numericFallbackAux_not_mem (base : String) (used : List String) :
    ∀ fuel k, (∃ j, j < fuel ∧ (base ++ natDecimal (k + j)) ∉ used) →
      numericFallbackAux base used fuel k ∉ used := by
  intro fuel
  induction fuel with
  | zero => intro k h; obtain ⟨j, hj, _⟩ := h; omega
  | succ fuel ih =>
    intro k h
    simp only [numericFallbackAux]
    by_cases hc : used.contains (base ++ natDecimal k) = true
    · rw [if_pos hc]
      obtain ⟨j, hj, hnot⟩ := h
      have hj0 : j ≠ 0 := by
        intro h0
        rw [h0, Nat.add_zero] at hnot
        exact hnot (List.elem_iff.mp hc)
      refine ih (k + 1) ⟨j - 1, by omega, ?_⟩
      have : k + 1 + (j - 1) = k + j := by omega
      rw [this]
      exact hnot
    · rw [if_neg hc]
      intro hmem
      exact hc (List.elem_iff.mpr hmem)

/-- The numeric fallback of the uniqueness resolver always finds a name
that is not yet claimed. -/
theorem numericFallback_not_mem (base : String) (used : List String) :
    numericFallback base used ∉ used := by
  unfold numericFallback
  refine numericFallbackAux_not_mem base used (used.length + 1) 1 ?_
  obtain ⟨j, hj, hnot⟩ := exists_fresh_suffix base used
  exact ⟨j, by omega, hnot⟩

/-- A name accepted by the segment loop is not yet claimed. -/
theorem segLoop_not_mem (pathSegments : List String) (methodName : String)
    (used : List String) (u : String) (h : segLoop pathSegments methodName used = some u) :
    u ∉ used := by
  unfold segLoop at h
  obtain ⟨seg, _, hseg⟩ := List.exists_of_findSome?_eq_some h
  by_cases hq : (seg != "api" && !(jsIncludes seg "\x7b")) = true
  · rw [if_pos hq] at hseg
    cases hins : tryVerbInsert methodName (toPascalCase seg) with
    | none => rw [hins] at hseg; exact absurd hseg (by simp)
    | some uniqueName =>
      rw [hins] at hseg
      simp at hseg
      obtain ⟨h1, rfl⟩ := hseg
      exact h1
  · rw [if_neg hq] at hseg
    exact absurd hseg (by simp)

/-! ## The uniqueness resolver: totality and injectivity -/

/-- Keys pass through `euAux` unchanged, in order. -/
theorem euAux_keys (counts : String → Nat) :
    ∀ (l : List (String × String)) (used : List String),
      (euAux counts used l).map (fun e => e.1) = l.map (fun e => e.1) := by
  intro l
  induction l with
  | nil => intro used; rfl
  | cons e rest ih =>
    intro used
    obtain ⟨key, methodName⟩ := e
    simp only [euAux]
    by_cases hc : (counts methodName > 1 || used.contains methodName) = true
    · rw [if_pos hc]
      cases hseg : segLoop ((jsSplit ((jsSplit key ':').headD "") '/').filter
          (fun s => s != "")) methodName used with
      | some uniqueName => simp [ih]
      | none => simp [ih]
    · rw [if_neg hc]
      simp [ih]

/-- Every value produced by `euAux` is new: the produced value list has
no duplicates and avoids everything already claimed. -/
theorem euAux_values_nodup (counts : String → Nat) :
    ∀ (l : List (String × String)) (used : List String),
      ((euAux counts used l).map (fun e => e.2)).Nodup ∧
      ∀ v ∈ (euAux counts used l).map (fun e => e.2), v ∉ used := by
  intro l
  induction l with
  | nil => intro used; exact ⟨by simp [euAux], by simp [euAux]⟩
  | cons e rest ih =>
    intro used
    obtain ⟨key, methodName⟩ := e
    simp only [euAux]
    by_cases hc : (counts methodName > 1 || used.contains methodName) = true
    · rw [if_pos hc]
      cases hseg : segLoop ((jsSplit ((jsSplit key ':').headD "") '/').filter
          (fun s => s != "")) methodName used with
      | some uniqueName =>
        have hfresh : uniqueName ∉ used := segLoop_not_mem _ _ _ _ hseg
        obtain ⟨ihn, ihf⟩ := ih (uniqueName :: used)
        refine ⟨List.nodup_cons.mpr ⟨fun hmem => ?_, ihn⟩, ?_⟩
        · exact (ihf uniqueName hmem) (List.mem_cons_self _ _)
        · intro v hv
          rcases List.mem_cons.mp hv with rfl | hv'
          · exact hfresh
          · intro hvu
            exact (ihf v hv') (List.mem_cons_of_mem _ hvu)
      | none =>
        have hfresh : numericFallback methodName used ∉ used :=
          numericFallback_not_mem methodName used
        obtain ⟨ihn, ihf⟩ := ih (numericFallback methodName used :: used)
        refine ⟨List.nodup_cons.mpr ⟨fun hmem => ?_, ihn⟩, ?_⟩
        · exact (ihf _ hmem) (List.mem_cons_self _ _)
        · intro v hv
          rcases List.mem_cons.mp hv with rfl | hv'
          · exact hfresh
          · intro hvu
            exact (ihf v hv') (List.mem_cons_of_mem _ hvu)
    · rw [if_neg hc]
      have hfresh : methodName ∉ used := by
        intro hmem
        refine hc (by simp; exact Or.inr hmem)
      obtain ⟨ihn, ihf⟩ := ih (methodName :: used)
      refine ⟨List.nodup_cons.mpr ⟨fun hmem => ?_, ihn⟩, ?_⟩
      · exact (ihf _ hmem) (List.mem_cons_self _ _)
      · intro v hv
        rcases List.mem_cons.mp hv with rfl | hv'
        · exact hfresh
        · intro hvu
          exact (ihf v hv') (List.mem_cons_of_mem _ hvu)

/-- The final names produced by `ensureUniqueMethodNames` are pairwise
distinct. -/
theorem ensureUniqueMethodNames_values_nodup (m : List (String × String)) :
    ((ensureUniqueMethodNames m).map (fun e => e.2)).Nodup :=
  (euAux_values_nodup (fun name => countName m name) m []).1

/-! ## C10: totality and termination of the uniqueness resolver -/

/-- C10: `ensureUniqueMethodNames` is total: it assigns a final name to
every key of the input map (keys pass through unchanged, in order), and
the increasing-integer-suffix search always finds an unclaimed name. -/
theorem ensureUniqueMethodNames_total :
    (∀ m : List (String × String),
      (ensureUniqueMethodNames m).map (fun e => e.1) = m.map (fun e => e.1)) ∧
    (∀ name used, numericFallback name used ∉ used) :=
  ⟨fun m => euAux_keys (fun name => countName m name) m [],
   fun name used => numericFallback_not_mem name used⟩

/-- Witness for C10. -/
theorem ensureUniqueMethodNames_total_witness :
    (ensureUniqueMethodNames collidingCandidates).map (fun e => e.1) =
      collidingCandidates.map (fun e => e.1) ∧
    numericFallback "getTasks" ["getTasks1"] ∉ (["getTasks1"] : List String) :=
  ⟨ensureUniqueMethodNames_total.1 collidingCandidates,
   ensureUniqueMethodNames_total.2 "getTasks" ["getTasks1"]⟩

/-! ## C1: injectivity of the final name assignment -/

/-- C1: the map returned by `ensureUniqueMethodNames` is injective — no
two distinct keys receive the same final name — and in particular the
multiset of final names of the combined candidate map of one emitted
unit of `generateComposableFromResources` has no duplicates. -/
theorem ensureUniqueMethodNames_injective :
    (∀ (m : List (String × String)) (e₁ e₂ : String × String),
      e₁ ∈ ensureUniqueMethodNames m → e₂ ∈ ensureUniqueMethodNames m →
      e₁.2 = e₂.2 → e₁.1 = e₂.1) ∧
    (∀ (resourceNames : List String) (schema : OpenAPISchema),
      ((ensureUniqueMethodNames (composableCandidateMap resourceNames schema)).map
        (fun e => e.2)).Nodup) := by
  constructor
  · intro m e₁ e₂ h₁ h₂ hv
    have := List.inj_on_of_nodup_map (ensureUniqueMethodNames_values_nodup m) h₁ h₂ hv
    rw [this]
  · intro resourceNames schema
    exact ensureUniqueMethodNames_values_nodup (composableCandidateMap resourceNames schema)

/-- Witness for C1. -/
theorem ensureUniqueMethodNames_injective_witness :
    ("/api/tasks:get", "getTasks").1 = ("/api/tasks:get", "getTasks").1 ∧
    ((ensureUniqueMethodNames (composableCandidateMap ["tasks"] tasksSchema)).map
      (fun e => e.2)).Nodup :=
  ⟨ensureUniqueMethodNames_injective.1 collidingCandidates _ _ (by decide) (by decide) rfl,
   ensureUniqueMethodNames_injective.2 ["tasks"] tasksSchema⟩

/-! ## The path comparator is a linear order -/

set_option maxRecDepth 4000 in
set_option maxHeartbeats 2000000 in
theorem rankTable_inj : ∀ m, m < 128 → ∀ n, n < 128 → rankTable m = rankTable n → m = n := by
  decide

set_option maxRecDepth 4000 in
theorem rankTable_lt : ∀ n, n < 128 → rankTable n < 256 := by decide

theorem charRank_inj (a b : Char) (h : charRank a = charRank b) : a = b := by
  unfold charRank at h
  have hn : a.toNat = b.toNat := by
    by_cases ha : a.toNat < 128
    · by_cases hb : b.toNat < 128
      · rw [if_pos ha, if_pos hb] at h
        exact rankTable_inj a.toNat ha b.toNat hb h
      · rw [if_pos ha, if_neg hb] at h
        have := rankTable_lt a.toNat ha
        omega
    · by_cases hb : b.toNat < 128
      · rw [if_neg ha, if_pos hb] at h
        have := rankTable_lt b.toNat hb
        omega
      · rw [if_neg ha, if_neg hb] at h
        omega
  exact Char.ext (UInt32.ext hn)

theorem collLt_asymm : ∀ a b : List Char, collLt a b = true → collLt b a = false := by
  intro a
  induction a with
  | nil =>
    intro b h
    cases b with
    | nil => simp [collLt] at h
    | cons y ys => simp [collLt]
  | cons x xs ih =>
    intro b h
    cases b with
    | nil => simp [collLt] at h
    | cons y ys =>
      simp only [collLt] at h ⊢
      by_cases h1 : charRank x < charRank y
      · rw [if_neg (lt_asymm h1), if_pos h1]
      · rw [if_neg h1] at h
        by_cases h2 : charRank y < charRank x
        · rw [if_pos h2] at h; exact absurd h (by simp)
        · rw [if_neg h2] at h
          rw [if_neg h2, if_neg h1]
          exact ih ys h

theorem collLt_trans :
    ∀ a b c : List Char, collLt a b = true → collLt b c = true → collLt a c = true := by
  intro a
  induction a with
  | nil =>
    intro b c hab hbc
    cases c with
    | nil =>
      cases b with
      | nil => simp [collLt] at hab
      | cons y ys => simp [collLt] at hbc
    | cons z zs => simp [collLt]
  | cons x xs ih =>
    intro b c hab hbc
    cases b with
    | nil => simp [collLt] at hab
    | cons y ys =>
      cases c with
      | nil => simp [collLt] at hbc
      | cons z zs =>
        simp only [collLt] at hab hbc ⊢
        by_cases h1 : charRank x < charRank y
        · by_cases h2 : charRank y < charRank z
          · rw [if_pos (lt_trans h1 h2)]
          · rw [if_neg h2] at hbc
            by_cases h3 : charRank z < charRank y
            · rw [if_pos h3] at hbc; exact absurd hbc (by simp)
            · have hyz : charRank y = charRank z :=
                le_antisymm (le_of_not_lt h3) (le_of_not_lt h2)
              rw [if_pos (hyz ▸ h1)]
        · rw [if_neg h1] at hab
          by_cases h1' : charRank y < charRank x
          · rw [if_pos h1'] at hab; exact absurd hab (by simp)
          · rw [if_neg h1'] at hab
            have hxy : charRank x = charRank y :=
              le_antisymm (le_of_not_lt h1') (le_of_not_lt h1)
            by_cases h2 : charRank y < charRank z
            · rw [if_pos (hxy ▸ h2)]
            · rw [if_neg h2] at hbc
              by_cases h3 : charRank z < charRank y
              · rw [if_pos h3] at hbc; exact absurd hbc (by simp)
              · rw [if_neg h3] at hbc
                have hyz : charRank y = charRank z :=
                  le_antisymm (le_of_not_lt h3) (le_of_not_lt h2)
                have hxz : ¬charRank x < charRank z := by
                  rw [hxy, hyz]; exact lt_irrefl _
                have hzx : ¬charRank z < charRank x := by
                  rw [hxy, hyz]; exact lt_irrefl _
                rw [if_neg hxz, if_neg hzx]
                exact ih ys zs hab hbc

theorem collLt_connex : ∀ a b : List Char, collLt a b = false → collLt b a = false → a = b := by
  intro a
  induction a with
  | nil =>
    intro b h1 _
    cases b with
    | nil => rfl
    | cons y ys => simp [collLt] at h1
  | cons x xs ih =>
    intro b h1 h2
    cases b with
    | nil => simp [collLt] at h2
    | cons y ys =>
      simp only [collLt] at h1 h2
      by_cases hxy : charRank x < charRank y
      · rw [if_pos hxy] at h1; exact absurd h1 (by simp)
      · by_cases hyx : charRank y < charRank x
        · rw [if_pos hyx] at h2; exact absurd h2 (by simp)
        · rw [if_neg hxy, if_neg hyx] at h1
          rw [if_neg hyx, if_neg hxy] at h2
          have hx : x = y :=
            charRank_inj x y (le_antisymm (le_of_not_lt hyx) (le_of_not_lt hxy))
          rw [hx, ih ys h1 h2]

theorem collLe_total (a b : List Char) : collLe a b = true ∨ collLe b a = true := by
  unfold collLe
  by_cases h1 : collLt a b = true
  · left; simp [h1]
  · by_cases h2 : collLt b a = true
    · right; simp [h2]
    · have : a = b := collLt_connex a b (by simpa using h1) (by simpa using h2)
      subst this
      left; simp

theorem collLe_trans (a b c : List Char) (hab : collLe a b = true) (hbc : collLe b c = true) :
    collLe a c = true := by
  unfold collLe at *
  rcases Bool.or_eq_true_iff.mp hab with h1 | h1
  · rcases Bool.or_eq_true_iff.mp hbc with h2 | h2
    · simp [collLt_trans a b c h1 h2]
    · have : b = c := beq_iff_eq.mp h2
      subst this
      simp [h1]
  · have : a = b := beq_iff_eq.mp h1
    subst this
    exact hbc

instance : IsTotal (String × PathItem) (fun a b => collLe a.1.data b.1.data = true) :=
  ⟨fun a b => collLe_total a.1.data b.1.data⟩

instance : IsTrans (String × PathItem) (fun a b => collLe a.1.data b.1.data = true) :=
  ⟨fun a b c hab hbc => collLe_trans a.1.data b.1.data c.1.data hab hbc⟩

instance : IsAntisymm (String × PathItem) (fun a b => collLt a.1.data b.1.data = true) :=
  ⟨fun a b h1 h2 => by rw [collLt_asymm _ _ h2] at h1; exact absurd h1 (by simp)⟩

theorem char_ofNat_toNat (n : Nat) (h : n < 0xd800) : (Char.ofNat n).toNat = n := by
  unfold Char.ofNat
  rw [dif_pos (Or.inl h)]
  rfl

theorem char_isLower_iff (c : Char) : c.isLower = true ↔ 97 ≤ c.toNat ∧ c.toNat ≤ 122 := by
  simp only [Char.isLower, UInt32.le_def, BitVec.le_def, Char.toNat, ge_iff_le,
    Bool.and_eq_true, decide_eq_true_eq]
  exact Iff.rfl

theorem char_isUpper_iff (c : Char) : c.isUpper = true ↔ 65 ≤ c.toNat ∧ c.toNat ≤ 90 := by
  simp only [Char.isUpper, UInt32.le_def, BitVec.le_def, Char.toNat, ge_iff_le,
    Bool.and_eq_true, decide_eq_true_eq]
  exact Iff.rfl

theorem char_toNat_lt (c : Char) : c.toNat < 1114112 := by
  have := c.valid
  rcases this with h | h
  · exact lt_trans h (by norm_num)
  · exact h.2

theorem char_toUpper_of_lower (c : Char) (h : c.isLower = true) :
    Char.toUpper c = Char.ofNat (c.toNat - 32) := by
  obtain ⟨h1, h2⟩ := (char_isLower_iff c).mp h
  simp only [Char.toUpper]
  rw [if_pos ⟨h1, h2⟩]

theorem char_toUpper_toNat (c : Char) (h : c.isLower = true) :
    (Char.toUpper c).toNat = c.toNat - 32 := by
  obtain ⟨h1, h2⟩ := (char_isLower_iff c).mp h
  rw [char_toUpper_of_lower c h]
  exact char_ofNat_toNat _ (by omega)

theorem char_toUpper_eq_self (c : Char) (h : c.isLower = false) : Char.toUpper c = c := by
  simp only [Char.toUpper]
  rw [if_neg]
  intro hc
  rw [(char_isLower_iff c).mpr ⟨hc.1, hc.2⟩] at h
  exact absurd h (by simp)

theorem char_toLower_of_upper (c : Char) (h : c.isUpper = true) :
    Char.toLower c = Char.ofNat (c.toNat + 32) := by
  obtain ⟨h1, h2⟩ := (char_isUpper_iff c).mp h
  simp only [Char.toLower]
  rw [if_pos ⟨h1, h2⟩]

theorem char_toLower_toNat (c : Char) (h : c.isUpper = true) :
    (Char.toLower c).toNat = c.toNat + 32 := by
  obtain ⟨h1, h2⟩ := (char_isUpper_iff c).mp h
  rw [char_toLower_of_upper c h]
  exact char_ofNat_toNat _ (by omega)

theorem char_toLower_eq_self (c : Char) (h : c.isUpper = false) : Char.toLower c = c := by
  simp only [Char.toLower]
  rw [if_neg]
  intro hc
  rw [(char_isUpper_iff c).mpr ⟨hc.1, hc.2⟩] at h
  exact absurd h (by simp)

theorem char_upper_not_lower (c : Char) (h : c.isUpper = true) : c.isLower = false := by
  obtain ⟨h1, h2⟩ := (char_isUpper_iff c).mp h
  cases hl : c.isLower with
  | false => rfl
  | true =>
    obtain ⟨h3, _⟩ := (char_isLower_iff c).mp hl
    omega

theorem char_lower_not_upper (c : Char) (h : c.isLower = true) : c.isUpper = false := by
  obtain ⟨h1, h2⟩ := (char_isLower_iff c).mp h
  cases hu : c.isUpper with
  | false => rfl
  | true =>
    obtain ⟨_, h3⟩ := (char_isUpper_iff c).mp hu
    omega

theorem char_toUpper_not_lower (c : Char) : (Char.toUpper c).isLower = false := by
  by_cases h : c.isLower = true
  · obtain ⟨h1, h2⟩ := (char_isLower_iff c).mp h
    cases hl : (Char.toUpper c).isLower with
    | false => rfl
    | true =>
      obtain ⟨h3, h4⟩ := (char_isLower_iff _).mp hl
      rw [char_toUpper_toNat c h] at h3 h4
      omega
  · rw [char_toUpper_eq_self c (by simpa using h)]
    simpa using h

theorem char_toUpper_upper_of_lower (c : Char) (h : c.isLower = true) :
    (Char.toUpper c).isUpper = true := by
  obtain ⟨h1, h2⟩ := (char_isLower_iff c).mp h
  refine (char_isUpper_iff _).mpr ?_
  rw [char_toUpper_toNat c h]
  omega

theorem char_toUpper_of_upper (c : Char) (h : c.isUpper = true) : Char.toUpper c = c :=
  char_toUpper_eq_self c (char_upper_not_lower c h)

theorem char_toLower_not_upper (c : Char) : (Char.toLower c).isUpper = false := by
  by_cases h : c.isUpper = true
  · obtain ⟨h1, h2⟩ := (char_isUpper_iff c).mp h
    cases hu : (Char.toLower c).isUpper with
    | false => rfl
    | true =>
      obtain ⟨h3, h4⟩ := (char_isUpper_iff _).mp hu
      rw [char_toLower_toNat c h] at h3 h4
      omega
  · rw [char_toLower_eq_self c (by simpa using h)]
    simpa using h

theorem char_toLower_of_lower (c : Char) (h : c.isLower = true) : Char.toLower c = c :=
  char_toLower_eq_self c (char_lower_not_upper c h)

theorem char_toLower_lower_of_upper (c : Char) (h : c.isUpper = true) :
    (Char.toLower c).isLower = true := by
  obtain ⟨h1, h2⟩ := (char_isUpper_iff c).mp h
  refine (char_isLower_iff _).mpr ?_
  rw [char_toLower_toNat c h]
  omega

theorem sep_toNat (c : Char) (h : isSepChar c = true) :
    c.toNat = 45 ∨ c.toNat = 95 ∨ c.toNat = 32 ∨ c.toNat = 9 ∨ c.toNat = 10 ∨
      c.toNat = 13 ∨ c.toNat = 11 ∨ c.toNat = 12 := by
  simp only [isSepChar, isJsWs, Bool.or_eq_true, beq_iff_eq] at h
  rcases h with ((h | h) | (((((h | h) | h) | h) | h) | h)) <;> subst h <;> decide

theorem char_notSep_toUpper (c : Char) (h : isSepChar c = false) :
    isSepChar (Char.toUpper c) = false := by
  by_cases hl : c.isLower = true
  · obtain ⟨h1, h2⟩ := (char_isLower_iff c).mp hl
    cases hs : isSepChar (Char.toUpper c) with
    | false => rfl
    | true =>
      have := sep_toNat _ hs
      rw [char_toUpper_toNat c hl] at this
      omega
  · rw [char_toUpper_eq_self c (by simpa using hl)]
    exact h

theorem char_notSep_toLower (c : Char) (h : isSepChar c = false) :
    isSepChar (Char.toLower c) = false := by
  by_cases hu : c.isUpper = true
  · obtain ⟨h1, h2⟩ := (char_isUpper_iff c).mp hu
    cases hs : isSepChar (Char.toLower c) with
    | false => rfl
    | true =>
      have := sep_toNat _ hs
      rw [char_toLower_toNat c hu] at this
      omega
  · rw [char_toLower_eq_self c (by simpa using hu)]
    exact h

theorem map_toLower_eq_self : ∀ (t : List Char), (∀ c ∈ t, c.isUpper = false) →
    t.map Char.toLower = t := by
  intro t
  induction t with
  | nil => intro _; rfl
  | cons c t ih =>
    intro h
    rw [List.map_cons, char_toLower_eq_self c (h c (List.mem_cons_self c t)),
      ih (fun x hx => h x (List.mem_cons_of_mem c hx))]

theorem capWord_good (w : List Char) (hne : w ≠ []) (hsf : SepFree w) : Good (capWord w) := by
  cases w with
  | nil => exact absurd rfl hne
  | cons c t =>
    refine ⟨by simp [capWord], ?_, ?_, ?_⟩
    · intro x hx
      rw [capWord] at hx
      rcases List.mem_cons.mp hx with rfl | hx'
      · exact char_notSep_toUpper c (hsf c (List.mem_cons_self c t))
      · obtain ⟨y, hy, rfl⟩ := List.mem_map.mp hx'
        exact char_notSep_toLower y (hsf y (List.mem_cons_of_mem c hy))
    · rw [capWord]
      exact char_toUpper_not_lower c
    · rw [capWord]
      intro x hx
      obtain ⟨y, _, rfl⟩ := List.mem_map.mp hx
      exact char_toLower_not_upper y

theorem capWord_fix (w : List Char) (h : Good w) : capWord w = w := by
  obtain ⟨hne, _, hh, ht⟩ := h
  cases w with
  | nil => exact absurd rfl hne
  | cons c t =>
    rw [capWord, char_toUpper_eq_self c hh, map_toLower_eq_self t ht]

theorem noBd_of_tailNotUpper : ∀ w, TailNotUpper w → NoBd w := by
  intro w
  induction w with
  | nil => intro _; trivial
  | cons a t ih =>
    intro h
    cases t with
    | nil => trivial
    | cons b t' =>
      refine ⟨fun hc => ?_, ih ?_⟩
      · rw [h b (List.mem_cons_self b t')] at hc
        exact absurd hc.2 (by simp)
      · intro c hc
        exact h c (List.mem_cons_of_mem b hc)

theorem insertDashes_fix : ∀ w, NoBd w → insertDashes w = w := by
  intro w
  induction w with
  | nil => intro _; rfl
  | cons a t ih =>
    intro h
    cases t with
    | nil => rfl
    | cons b t' =>
      obtain ⟨h1, h2⟩ := h
      have hcond : (a.isLower && b.isUpper) = false := by
        cases hl : a.isLower with
        | false => rfl
        | true =>
          cases hu : b.isUpper with
          | false => simp
          | true => exact absurd ⟨hl, hu⟩ h1
      rw [insertDashes, if_neg (by simp [hcond]), ih h2]

theorem insertDashes_append_bd : ∀ w, NoBd w → lastLower w →
    ∀ l, startsUpper l → insertDashes (w ++ l) = w ++ '-' :: insertDashes l := by
  intro w
  induction w with
  | nil => intro _ hll; exact absurd hll (by simp [lastLower])
  | cons a t ih =>
    intro hnb hll l hsu
    cases t with
    | nil =>
      cases l with
      | nil => exact absurd hsu (by simp [startsUpper])
      | cons u l' =>
        have ha : a.isLower = true := hll
        have hu : u.isUpper = true := hsu
        simp only [List.cons_append, List.nil_append]
        rw [insertDashes, if_pos (by simp [ha, hu])]
    | cons b t' =>
      obtain ⟨h1, h2⟩ := hnb
      have hcond : (a.isLower && b.isUpper) = false := by
        cases hl : a.isLower with
        | false => rfl
        | true =>
          cases hup : b.isUpper with
          | false => simp
          | true => exact absurd ⟨hl, hup⟩ h1
      have hll' : lastLower (b :: t') := hll
      simp only [List.cons_append]
      rw [insertDashes, if_neg (by simp [hcond])]
      have := ih h2 hll' l hsu
      simp only [List.cons_append] at this
      rw [this]

theorem startsUpper_append (w l : List Char) (h : startsUpper w) : startsUpper (w ++ l) := by
  cases w with
  | nil => exact absurd h (by simp [startsUpper])
  | cons c t => exact h

theorem chain_good : ∀ ws, Chain ws → ∀ w ∈ ws, Good w := by
  intro ws
  induction ws with
  | nil => intro _ w hw; exact absurd hw (by simp)
  | cons w ws' ih =>
    intro hc x hx
    cases ws' with
    | nil =>
      rcases List.mem_cons.mp hx with rfl | hx'
      · exact hc
      · exact absurd hx' (by simp)
    | cons w'' ws'' =>
      obtain ⟨g, _, _, hrest⟩ := hc
      rcases List.mem_cons.mp hx with rfl | hx'
      · exact g
      · exact ih hrest x hx'

theorem insertDashes_flatten_chain : ∀ ws, Chain ws → insertDashes ws.flatten = dashJoin ws := by
  intro ws
  induction ws with
  | nil => intro _; rfl
  | cons w ws' ih =>
    intro hc
    cases ws' with
    | nil =>
      have hg : Good w := hc
      simp only [List.flatten, List.append_nil, dashJoin]
      exact insertDashes_fix w (noBd_of_tailNotUpper w hg.2.2.2)
    | cons w'' ws'' =>
      obtain ⟨g, hll, hsu, hrest⟩ := hc
      have hflat : (w :: w'' :: ws'').flatten = w ++ (w'' :: ws'').flatten := rfl
      rw [hflat]
      have hsu' : startsUpper ((w'' :: ws'').flatten) := by
        have : (w'' :: ws'').flatten = w'' ++ ws''.flatten := rfl
        rw [this]
        exact startsUpper_append w'' ws''.flatten hsu
      rw [insertDashes_append_bd w (noBd_of_tailNotUpper w g.2.2.2) hll _ hsu', ih hrest]
      rfl

theorem splitSeps_ne_nil : ∀ l, splitSeps l ≠ [] := by
  intro l
  induction l with
  | nil => simp [splitSeps]
  | cons c rest ih =>
    simp only [splitSeps]
    by_cases hc : isSepChar c = true
    · rw [if_pos hc]; simp
    · rw [if_neg hc]
      cases hsp : splitSeps rest with
      | nil => exact absurd hsp ih
      | cons w ws => simp

theorem splitSeps_append_sepfree : ∀ w, SepFree w → ∀ l p ps, splitSeps l = p :: ps →
    splitSeps (w ++ l) = (w ++ p) :: ps := by
  intro w
  induction w with
  | nil => intro _ l p ps h; simpa using h
  | cons c w' ih =>
    intro hsf l p ps h
    have hc : isSepChar c = false := hsf c (List.mem_cons_self c w')
    have hsf' : SepFree w' := fun x hx => hsf x (List.mem_cons_of_mem c hx)
    simp only [List.cons_append, splitSeps, List.append_eq]
    rw [if_neg (by simp [hc]), ih hsf' l p ps h]

theorem splitSeps_sepfree (w : List Char) (h : SepFree w) : splitSeps w = [w] := by
  have := splitSeps_append_sepfree w h [] [] [] rfl
  simpa using this

theorem splitSeps_dash (l : List Char) : splitSeps ('-' :: l) = [] :: splitSeps l := by
  simp only [splitSeps]
  rw [if_pos (by decide)]

theorem wordsOf_dashJoin : ∀ ws, (∀ w ∈ ws, w ≠ [] ∧ SepFree w) → wordsOf (dashJoin ws) = ws := by
  intro ws
  induction ws with
  | nil => intro _; rfl
  | cons w ws' ih =>
    intro h
    obtain ⟨hne, hsf⟩ := h w (List.mem_cons_self w ws')
    have hlen : 0 < w.length := by
      cases w with
      | nil => exact absurd rfl hne
      | cons _ _ => simp
    cases ws' with
    | nil =>
      show wordsOf w = [w]
      unfold wordsOf
      rw [splitSeps_sepfree w hsf]
      simp [List.filter_cons, hlen]
    | cons w'' ws'' =>
      have hstep : dashJoin (w :: w'' :: ws'') = w ++ '-' :: dashJoin (w'' :: ws'') := rfl
      rw [hstep]
      cases hsp : splitSeps (dashJoin (w'' :: ws'')) with
      | nil => exact absurd hsp (splitSeps_ne_nil _)
      | cons p ps =>
        have hdash : splitSeps ('-' :: dashJoin (w'' :: ws'')) = [] :: p :: ps := by
          rw [splitSeps_dash, hsp]
        unfold wordsOf
        rw [splitSeps_append_sepfree w hsf _ _ _ hdash]
        rw [List.append_nil]
        rw [List.filter_cons]
        rw [if_pos (by simpa using hlen)]
        have ihres := ih (fun x hx => h x (List.mem_cons_of_mem w hx))
        unfold wordsOf at ihres
        rw [hsp] at ihres
        rw [ihres]

/-! ## The formatter is a fixed point on chains -/

/-- The formatter fixes the concatenation of any chain of capitalized
words: the inserted dashes land exactly at the word junctions, the split
recovers the words, and capitalization fixes each word. -/
theorem toPascalList_flatten_chain (ws : List (List Char)) (hc : Chain ws) :
    toPascalList ws.flatten = ws.flatten := by
  unfold toPascalList
  rw [insertDashes_flatten_chain ws hc]
  rw [wordsOf_dashJoin ws (fun w hw => ⟨(chain_good ws hc w hw).1, (chain_good ws hc w hw).2.1⟩)]
  have hmap : ∀ vs : List (List Char), (∀ w ∈ vs, Good w) → vs.map capWord = vs := by
    intro vs
    induction vs with
    | nil => intro _; rfl
    | cons v vs' ihv =>
      intro hall
      rw [List.map_cons, capWord_fix v (hall v (List.mem_cons_self v vs')),
        ihv (fun w hw => hall w (List.mem_cons_of_mem v hw))]
  rw [hmap ws (chain_good ws hc)]

theorem chunksCh_head : ∀ (r : List Char) (c : Char),
    ∃ w ws, chunksCh (c :: r) = (c :: w) :: ws := by
  intro r
  induction r with
  | nil => intro c; exact ⟨[], [], rfl⟩
  | cons b r' ih =>
    intro c
    by_cases hb : (c.isLower && b.isUpper) = true
    · rw [chunksCh, if_pos hb]
      exact ⟨[], chunksCh (b :: r'), rfl⟩
    · obtain ⟨w, ws, hw⟩ := ih b
      rw [chunksCh, if_neg hb, hw]
      exact ⟨b :: w, ws, rfl⟩

theorem insertDashes_head : ∀ (r : List Char) (c : Char),
    ∃ t, insertDashes (c :: r) = c :: t := by
  intro r c
  cases r with
  | nil => exact ⟨[], rfl⟩
  | cons b r' =>
    by_cases hb : (c.isLower && b.isUpper) = true
    · rw [insertDashes, if_pos hb]
      exact ⟨'-' :: insertDashes (b :: r'), rfl⟩
    · rw [insertDashes, if_neg hb]
      exact ⟨insertDashes (b :: r'), rfl⟩

/-- For separator-free input, dash-insertion followed by the separator
split computes exactly the boundary chunks. -/
theorem wordsOf_insertDashes (y : List Char) :
    SepFree y → wordsOf (insertDashes y) = chunksCh y := by
  induction y using chunksCh.induct with
  | case1 => intro _; rfl
  | case2 c =>
    intro hsf
    have hc : isSepChar c = false := hsf c (List.mem_cons_self c [])
    unfold wordsOf
    rw [show insertDashes [c] = [c] from rfl]
    rw [splitSeps_sepfree [c] (fun x hx => by
      rcases List.mem_cons.mp hx with rfl | h
      · exact hc
      · simp at h)]
    rfl
  | case3 a b r hb ih =>
    intro hsf
    have ha : isSepChar a = false := hsf a (List.mem_cons_self _ _)
    have hsf2 : SepFree (b :: r) := fun x hx => hsf x (List.mem_cons_of_mem a hx)
    rw [chunksCh, if_pos hb]
    rw [insertDashes, if_pos hb]
    cases hsp : splitSeps (insertDashes (b :: r)) with
    | nil => exact absurd hsp (splitSeps_ne_nil _)
    | cons p ps =>
      have hdash : splitSeps ('-' :: insertDashes (b :: r)) = [] :: p :: ps := by
        rw [splitSeps_dash, hsp]
      have hstep := splitSeps_append_sepfree [a] (fun x hx => by
        rcases List.mem_cons.mp hx with rfl | h
        · exact ha
        · simp at h) ('-' :: insertDashes (b :: r)) [] (p :: ps) hdash
      unfold wordsOf
      rw [show a :: '-' :: insertDashes (b :: r) = [a] ++ '-' :: insertDashes (b :: r) from rfl]
      rw [hstep, List.append_nil]
      rw [List.filter_cons, if_pos (by simp)]
      have hres := ih hsf2
      unfold wordsOf at hres
      rw [hsp] at hres
      rw [hres]
  | case4 a b r hb hck ih =>
    intro _
    obtain ⟨w, ws, hw⟩ := chunksCh_head r b
    rw [hw] at hck
    exact absurd hck (by simp)
  | case5 a b r hb p ps hck ih =>
    intro hsf
    have ha : isSepChar a = false := hsf a (List.mem_cons_self _ _)
    have hsf2 : SepFree (b :: r) := fun x hx => hsf x (List.mem_cons_of_mem a hx)
    have hbnot : isSepChar b = false := hsf2 b (List.mem_cons_self _ _)
    rw [chunksCh, if_neg hb, hck]
    rw [insertDashes, if_neg hb]
    obtain ⟨t, hins⟩ := insertDashes_head r b
    rw [hins]
    cases hsp : splitSeps t with
    | nil => exact absurd hsp (splitSeps_ne_nil _)
    | cons q qs =>
      have hbq : splitSeps (b :: t) = (b :: q) :: qs := by
        rw [splitSeps, if_neg (by simp [hbnot]), hsp]
      have hstep := splitSeps_append_sepfree [a] (fun x hx => by
        rcases List.mem_cons.mp hx with rfl | h
        · exact ha
        · simp at h) (b :: t) (b :: q) qs hbq
      unfold wordsOf
      rw [show a :: b :: t = [a] ++ b :: t from rfl]
      rw [hstep]
      rw [List.filter_cons, if_pos (by simp)]
      have hres := ih hsf2
      unfold wordsOf at hres
      rw [hins, hbq] at hres
      rw [List.filter_cons, if_pos (by simp)] at hres
      rw [hck] at hres
      injection hres with h1 h2
      rw [show ([a] ++ b :: q) = a :: b :: q from rfl, h1, h2]

theorem chunksCh_shape : ∀ y, ChunkShape (chunksCh y) := by
  intro y
  induction y using chunksCh.induct with
  | case1 => trivial
  | case2 c => trivial
  | case3 a b r hb ih =>
    rw [chunksCh, if_pos hb]
    obtain ⟨w, ws, hw⟩ := chunksCh_head r b
    rw [hw]
    have hb' : a.isLower = true ∧ b.isUpper = true := by simpa using hb
    refine ⟨hb'.1, hb'.2, ?_⟩
    rw [hw] at ih
    exact ih
  | case4 a b r hb hck ih =>
    obtain ⟨w, ws, hw⟩ := chunksCh_head r b
    rw [hw] at hck
    exact absurd hck (by simp)
  | case5 a b r hb p ps hck ih =>
    obtain ⟨w, ws, hw⟩ := chunksCh_head r b
    rw [hck] at hw
    injection hw with hp hps
    subst hp
    subst hps
    rw [chunksCh, if_neg hb, hck]
    rw [hck] at ih
    show ChunkShape ((a :: b :: w) :: ps)
    cases ps with
    | nil => trivial
    | cons s ps' =>
      obtain ⟨hll, hsu, hshape⟩ := ih
      exact ⟨hll, hsu, hshape⟩

theorem chunksCh_good : ∀ y, SepFree y → ∀ w ∈ chunksCh y, w ≠ [] ∧ SepFree w := by
  intro y
  induction y using chunksCh.induct with
  | case1 => intro _ w hw; exact absurd hw (by simp [chunksCh])
  | case2 c =>
    intro hsf w hw
    rw [chunksCh] at hw
    rcases List.mem_cons.mp hw with rfl | hw'
    · exact ⟨by simp, fun x hx => by
        rcases List.mem_cons.mp hx with rfl | h
        · exact hsf x (List.mem_cons_self x [])
        · simp at h⟩
    · exact absurd hw' (by simp)
  | case3 a b r hb ih =>
    intro hsf w hw
    have ha : isSepChar a = false := hsf a (List.mem_cons_self _ _)
    have hsf2 : SepFree (b :: r) := fun x hx => hsf x (List.mem_cons_of_mem a hx)
    rw [chunksCh, if_pos hb] at hw
    rcases List.mem_cons.mp hw with rfl | hw'
    · exact ⟨by simp, fun x hx => by
        rcases List.mem_cons.mp hx with rfl | h
        · exact ha
        · simp at h⟩
    · exact ih hsf2 w hw'
  | case4 a b r hb hck ih =>
    intro _ w hw
    obtain ⟨w', ws, hw'⟩ := chunksCh_head r b
    rw [hw'] at hck
    exact absurd hck (by simp)
  | case5 a b r hb p ps hck ih =>
    intro hsf w hw
    have ha : isSepChar a = false := hsf a (List.mem_cons_self _ _)
    have hsf2 : SepFree (b :: r) := fun x hx => hsf x (List.mem_cons_of_mem a hx)
    rw [chunksCh, if_neg hb, hck] at hw
    rcases List.mem_cons.mp hw with rfl | hw'
    · have hp := ih hsf2 p (by rw [hck]; exact List.mem_cons_self p ps)
      refine ⟨by simp, fun x hx => ?_⟩
      rcases List.mem_cons.mp hx with rfl | h
      · exact ha
      · exact hp.2 x h
    · exact ih hsf2 w (by rw [hck]; exact List.mem_cons_of_mem p hw')

theorem lastLower_map_toLower : ∀ l, lastLower l → lastLower (l.map Char.toLower) := by
  intro l
  induction l with
  | nil => intro h; exact absurd h (by simp [lastLower])
  | cons c t ih =>
    intro h
    cases t with
    | nil =>
      have hc : c.isLower = true := h
      show (Char.toLower c).isLower = true
      rw [char_toLower_of_lower c hc]
      exact hc
    | cons d t' =>
      have h' : lastLower (d :: t') := h
      exact ih h'

theorem lastLower_capWord (w : List Char) (h1 : HeadNotLower w) (hll : lastLower w) :
    lastLower (capWord w) := by
  cases w with
  | nil => exact absurd hll (by simp [lastLower])
  | cons c t =>
    cases t with
    | nil =>
      have hc : c.isLower = true := hll
      have : c.isLower = false := h1
      rw [this] at hc
      exact absurd hc (by simp)
    | cons d t' =>
      have h' : lastLower (d :: t') := hll
      exact lastLower_map_toLower (d :: t') h' 

theorem startsUpper_capWord (w : List Char) (h : startsUpper w) : startsUpper (capWord w) := by
  cases w with
  | nil => exact absurd h (by simp [startsUpper])
  | cons c t =>
    have hc : c.isUpper = true := h
    rw [capWord]
    show (Char.toUpper c).isUpper = true
    rw [char_toUpper_of_upper c hc]
    exact hc

theorem chain_of_shape : ∀ cs, (∀ w ∈ cs, w ≠ [] ∧ SepFree w) → ChunkShape cs →
    HeadNotLowerFirst cs → Chain (cs.map capWord) := by
  intro cs
  induction cs with
  | nil => intro _ _ _; trivial
  | cons w cs' ih =>
    intro hgood hshape hfirst
    obtain ⟨hne, hsf⟩ := hgood w (List.mem_cons_self w cs')
    cases cs' with
    | nil =>
      show Chain [capWord w]
      exact capWord_good w hne hsf
    | cons w' cs'' =>
      obtain ⟨hll, hsu, hshape'⟩ := hshape
      have hfirst' : HeadNotLower w' := by
        obtain ⟨hne', _⟩ := hgood w' (List.mem_cons_of_mem w (List.mem_cons_self w' cs''))
        cases w' with
        | nil => exact absurd rfl hne'
        | cons c t => exact char_upper_not_lower c hsu
      refine ⟨capWord_good w hne hsf, ?_, ?_, ?_⟩
      · exact lastLower_capWord w hfirst hll
      · exact startsUpper_capWord w' hsu
      · exact ih (fun x hx => hgood x (List.mem_cons_of_mem w hx)) hshape' hfirst'

theorem splitSeps_pieces_sepfree : ∀ l w, w ∈ splitSeps l → SepFree w := by
  intro l
  induction l with
  | nil =>
    intro w hw
    rcases List.mem_cons.mp hw with rfl | h
    · intro c hc; simp at hc
    · simp at h
  | cons c rest ih =>
    intro w hw
    by_cases hc : isSepChar c = true
    · rw [splitSeps, if_pos hc] at hw
      rcases List.mem_cons.mp hw with rfl | hw'
      · intro x hx; simp at hx
      · exact ih w hw'
    · rw [splitSeps, if_neg hc] at hw
      cases hsp : splitSeps rest with
      | nil => exact absurd hsp (splitSeps_ne_nil _)
      | cons p ps =>
        rw [hsp] at hw
        rcases List.mem_cons.mp hw with rfl | hw'
        · intro x hx
          rcases List.mem_cons.mp hx with rfl | hx'
          · simpa using hc
          · exact ih p (by rw [hsp]; exact List.mem_cons_self p ps) x hx'
        · exact ih w (by rw [hsp]; exact List.mem_cons_of_mem p hw')

theorem wordsOf_spec (l : List Char) (w : List Char) (hw : w ∈ wordsOf l) :
    w ≠ [] ∧ SepFree w := by
  unfold wordsOf at hw
  obtain ⟨hmem, hlen⟩ := List.mem_filter.mp hw
  refine ⟨?_, splitSeps_pieces_sepfree _ w hmem⟩
  intro h
  rw [h] at hlen
  simp at hlen

theorem toPascalList_sepFree (x : List Char) : SepFree (toPascalList x) := by
  intro c hc
  unfold toPascalList at hc
  obtain ⟨w, hw, hcw⟩ := List.mem_flatten.mp hc
  obtain ⟨v, hv, rfl⟩ := List.mem_map.mp hw
  obtain ⟨hne, hsf⟩ := wordsOf_spec _ v hv
  exact (capWord_good v hne hsf).2.1 c hcw

theorem flatten_headNotLower : ∀ ws : List (List Char),
    (∀ w ∈ ws, w ≠ [] ∧ HeadNotLower w) → HeadNotLower ws.flatten := by
  intro ws
  induction ws with
  | nil => intro _; trivial
  | cons w ws' ih =>
    intro h
    obtain ⟨hne, hh⟩ := h w (List.mem_cons_self w ws')
    cases w with
    | nil => exact absurd rfl hne
    | cons c t =>
      show HeadNotLower (c :: (t ++ ws'.flatten))
      exact hh

theorem toPascalList_headNotLower (x : List Char) : HeadNotLower (toPascalList x) := by
  unfold toPascalList
  refine flatten_headNotLower _ ?_
  intro w hw
  obtain ⟨v, hv, rfl⟩ := List.mem_map.mp hw
  obtain ⟨hne, hsf⟩ := wordsOf_spec _ v hv
  exact ⟨(capWord_good v hne hsf).1, (capWord_good v hne hsf).2.2.1⟩

theorem chunksCh_headNotLowerFirst (y : List Char) (h : HeadNotLower y) :
    HeadNotLowerFirst (chunksCh y) := by
  cases y with
  | nil => trivial
  | cons c r =>
    obtain ⟨w, ws, hw⟩ := chunksCh_head r c
    rw [hw]
    exact h

/-- The second application of the formatter reaches a fixed point. -/
theorem toPascalList_stable (x : List Char) :
    toPascalList (toPascalList (toPascalList x)) = toPascalList (toPascalList x) := by
  have hsf : SepFree (toPascalList x) := toPascalList_sepFree x
  have hhl : HeadNotLower (toPascalList x) := toPascalList_headNotLower x
  have h2 : toPascalList (toPascalList x) =
      ((chunksCh (toPascalList x)).map capWord).flatten := by
    show ((wordsOf (insertDashes (toPascalList x))).map capWord).flatten = _
    rw [wordsOf_insertDashes _ hsf]
  have hchain : Chain ((chunksCh (toPascalList x)).map capWord) :=
    chain_of_shape _ (chunksCh_good _ hsf) (chunksCh_shape _)
      (chunksCh_headNotLowerFirst _ hhl)
  rw [h2, toPascalList_flatten_chain _ hchain]

/-! ## C2: `toPascalCase` is not idempotent; two applications stabilize -/

/-- C2 counterexample: `toPascalCase` is not idempotent.  On `"aB"` the
first application yields `"AB"` (single-letter word `a` capitalized, `B`
kept), and the second sees no `a→B`-style boundary inside `"AB"`, treats
it as one word and lowercases its tail: `"Ab"`. -/
theorem toPascalCase_not_idempotent :
    toPascalCase (toPascalCase "aB") ≠ toPascalCase "aB" ∧
    toPascalCase "aB" = "AB" ∧ toPascalCase (toPascalCase "aB") = "Ab" := by
  refine ⟨by decide, by decide, by decide⟩

/-- C2 as amended: a second application of `toPascalCase` may still
change the result, but the image of the double application is a fixed
point — `toPascalCase ∘ toPascalCase` is idempotent. -/
theorem toPascalCase_stabilizes (s : String) :
    toPascalCase (toPascalCase (toPascalCase s)) = toPascalCase (toPascalCase s) :=
  congrArg String.mk (toPascalList_stable s.data)
